import Mathlib

/-!
# Verification of the vqlite B+Tree storage engine

A shallow embedding, in Lean 4, of the core of the vqlite single-file
key/value storage engine: the row codec (`row.go`, `table.go`), the on-disk
node codec (`header.go`, `btree_node.go`), the pager (`pager/Pager.go`),
and the B+Tree operations (`btree.go`): insert with split/promote,
cursor traversal (`NewCursor`/`Next`/`Seek`), search, and delete.

The repository contains several overlapping revisions of the same files.
The revision embedded here is the canonical one: the cursor-based
`BTree.Search`/`Cursor.Seek` driver together with the recursive
`InteriorNode.Insert`, and the pager revision whose `GetPage` materializes
fresh zeroed pages past the end of file.

Two levels of model are used:

* a byte-level model of serialization (`le32`, `serializeRow`,
  `serializeLeaf`, `loadLeaf`, `serializeInterior`, `loadInterior`) used for
  the round-trip properties; pages are lists of byte values;
* a page-store model of the tree operations (`DB`, `btreeInsert`,
  `searchTree`, `btreeDelete`, `cursorSeek`, ...) in which each page of the
  pager cache holds the decoded content that the byte-level codec would
  produce; row values are an opaque type parameter `α` at this level, as the
  tree code treats rows as opaque blobs.

Machine integers (`uint32`, bytes) are modelled as `Nat`, with explicit
`% 256` / `% 2 ^ 32` reductions at the points where the code truncates.
Fallible operations return `Option`; `none` models an error return or a
runtime panic, as noted at each definition.
-/

namespace VqLite

/-! ## Little-endian 32-bit encoding (`encoding/binary` LittleEndian) -/

/-- The four bytes of `binary.LittleEndian.PutUint32` for value `n`
(a Go `uint32`; larger `Nat` values are truncated mod `2 ^ 32` exactly as the
four byte writes would). -/
def le32 (n : Nat) : List Nat :=
  [n % 256, n / 256 % 256, n / 65536 % 256, n / 16777216 % 256]

/-- `binary.LittleEndian.Uint32` on the first four bytes of `bs`
(missing bytes read as zero). -/
def rd32 (bs : List Nat) : Nat :=
  bs.getD 0 0 + 256 * bs.getD 1 0 + 65536 * bs.getD 2 0 + 16777216 * bs.getD 3 0

/-- `copy(buf[off:off+len(src)], src)`: overwrite the bytes of `buf` starting
at `off` with `src` (callers stay in bounds). -/
def writeBytes (buf : List Nat) (off : Nat) (src : List Nat) : List Nat :=
  buf.take off ++ src ++ buf.drop (off + src.length)

/-- `buf[off : off+len]` as a read (short when the buffer ends early). -/
def readBytes (buf : List Nat) (off len : Nat) : List Nat :=
  (buf.drop off).take len

/-- `strings.TrimRight(s, "\x00")`: drop all trailing zero bytes. -/
def trimTrailingZeros (bs : List Nat) : List Nat :=
  (bs.reverse.dropWhile (· = 0)).reverse

/-- `slices.Insert(l, i, a)`: splice `a` into `l` at index `i`, shifting the
rest right (for `i > length`, Go would panic; here the element lands at the
end, a case no modelled run reaches). -/
def listInsertAt {α : Type} : Nat → α → List α → List α
  | 0, a, l => a :: l
  | _ + 1, a, [] => [a]
  | i + 1, a, b :: l => b :: listInsertAt i a l

/-- The loop of Go `sort.Search` on the interval `[i, j)`: binary search for
the least index at which `f` holds, assuming `f` monotone.  The loop runs
while `i < j`, and `j - i` shrinks at every iteration, so a fuel of the
initial interval width makes the recursion structural without changing the
result. -/
def searchLoop : Nat → (Nat → Bool) → Nat → Nat → Nat
  | 0, _, i, _ => i
  | fuel + 1, f, i, j =>
    if i < j then
      let m := (i + j) / 2
      if f m then searchLoop fuel f i m else searchLoop fuel f (m + 1) j
    else i

/-- `sort.Search(n, f)`: least `i < n` with `f i`, or `n` if none (for
monotone `f`). -/
def sortSearch (n : Nat) (f : Nat → Bool) : Nat :=
  searchLoop n f 0 n

/-! ## Row codec (`row.go`, `table.go` / `vqlite/column`)

`Row` is `[]interface{}` in Go; here a list of `Value`.  Text values are
kept as their byte sequences (`[]byte(s)`). -/

inductive ColType where
  | int
  | text
  deriving DecidableEq, Repr

/-- One entry of a `column.Schema` as consumed by `BuildTableMeta`. -/
structure SchemaCol where
  name : String
  ty : ColType
  maxLength : Nat
  deriving DecidableEq, Repr

/-- `column.ColMeta`: layout of one column inside a serialized row. -/
structure ColMeta where
  name : String
  ty : ColType
  offset : Nat
  byteSize : Nat
  maxLength : Nat
  deriving DecidableEq, Repr

/-- `table.TableMeta`. -/
structure TableMeta where
  numCols : Nat
  columns : List ColMeta
  rowSize : Nat
  deriving DecidableEq, Repr

/-- The column loop of `BuildTableMeta`, threading the running `offset`;
returns the column metas and the final offset (= total row size). -/
def buildTableMetaAux (off : Nat) : List SchemaCol → Option (List ColMeta × Nat)
  | [] => some ([], off)
  | c :: rest =>
    match c.ty with
    | .int =>
      (buildTableMetaAux (off + 4) rest).map fun p =>
        (⟨c.name, .int, off, 4, 0⟩ :: p.1, p.2)
    | .text =>
      if c.maxLength = 0 then none
      else
        (buildTableMetaAux (off + c.maxLength) rest).map fun p =>
          (⟨c.name, .text, off, c.maxLength, c.maxLength⟩ :: p.1, p.2)

/-- `table.BuildTableMeta`: derive per-column offsets and the row size from a
schema; rejects TEXT columns without a `MaxLength` and empty schemas. -/
def buildTableMeta (schema : List SchemaCol) : Option TableMeta :=
  match buildTableMetaAux 0 schema with
  | none => none
  | some (ms, total) =>
    if total = 0 then none else some ⟨schema.length, ms, total⟩

/-- A field value of a row: a Go `uint32` or the bytes of a Go `string`. -/
inductive Value where
  | int (n : Nat)
  | text (bs : List Nat)
  deriving DecidableEq, Repr

/-- The column loop of `SerializeRow`: write each field at its column offset
into `buf`; `none` models the type-assertion error return. -/
def serializeRowAux : List ColMeta → List Value → List Nat → Option (List Nat)
  | [], _, buf => some buf
  | _ :: _, [], _ => none
  | c :: cs, v :: vs, buf =>
    match c.ty, v with
    | .int, .int n => serializeRowAux cs vs (writeBytes buf c.offset (le32 n))
    | .text, .text bs =>
      serializeRowAux cs vs
        (writeBytes buf c.offset (if bs.length > c.maxLength then bs.take c.maxLength else bs))
    | _, _ => none

/-- `table.SerializeRow` into a fresh zeroed destination of `rowSize` bytes
(the Go function zeroes its destination slice before writing the fields). -/
def serializeRow (m : TableMeta) (row : List Value) : Option (List Nat) :=
  if row.length = m.numCols then
    serializeRowAux m.columns row (List.replicate m.rowSize 0)
  else none

/-- The per-column read of `DeserializeRow`: an INT column reads four bytes
at its offset; a TEXT column reads `byteSize` bytes and trims trailing zero
bytes. -/
def readColVal (src : List Nat) (c : ColMeta) : Value :=
  match c.ty with
  | .int => .int (rd32 (readBytes src c.offset 4))
  | .text => .text (trimTrailingZeros (readBytes src c.offset c.byteSize))

/-- `table.DeserializeRow`: after the length check, read each column back
from its offset. -/
def deserializeRow (m : TableMeta) (src : List Nat) : Option (List Value) :=
  if src.length = m.rowSize then some (m.columns.map (readColVal src))
  else none

/-! ## Node codec (`header.go`, `btree_node.go`)

The 14-byte header is `[type | isRoot | parentPage | numCells |
rightPointer]`; `pageNum` lives only in memory and is never serialized, so
the byte-level records carry exactly the serialized attributes. -/

/-- Page type bytes. -/
def nodeTypeLeaf : Nat := 1

def nodeTypeInterior : Nat := 0

/-- The byte size of the common node header. -/
def headerSize : Nat := 14

/-- The page size used by the pager. -/
def pageSize : Nat := 4096

/-- The fixed in-memory cell capacity before a split fires. -/
def maxCells : Nat := 12

/-- The serialized fields of `baseHeader` (everything `writeTo` emits except
the leading type byte). -/
structure NodeHdr where
  isRoot : Bool
  parentPage : Nat
  numCells : Nat
  rightPointer : Nat
  deriving DecidableEq, Repr

/-- `baseHeader.writeTo`: the 14 header bytes for a node of type `ntype`. -/
def hdrBytes (h : NodeHdr) (ntype : Nat) : List Nat :=
  ntype :: (if h.isRoot then 1 else 0) ::
    (le32 h.parentPage ++ le32 h.numCells ++ le32 h.rightPointer)

/-- `baseHeader.readFrom` on the first 14 bytes of a page (the type byte is
checked separately by each `Load`). -/
def parseHdr (bs : List Nat) : NodeHdr :=
  ⟨bs.getD 1 0 = 1, rd32 (readBytes bs 2 4), rd32 (readBytes bs 6 4),
    rd32 (readBytes bs 10 4)⟩

/-- A leaf node's serialized attributes: header plus `(key, row)` cells. -/
structure LeafRec where
  header : NodeHdr
  cells : List (Nat × List Value)
  deriving DecidableEq, Repr

/-- An interior node's serialized attributes: header plus
`(childPage, key)` cells. -/
structure IntRec where
  header : NodeHdr
  cells : List (Nat × Nat)
  deriving DecidableEq, Repr

/-- The cell loop of `LeafNode.Serialize`: each cell is
`[key | serialized row]`, written consecutively. -/
def serializeLeafCells (m : TableMeta) : List (Nat × List Value) → Option (List Nat)
  | [] => some []
  | (k, r) :: rest => do
    let rb ← serializeRow m r
    let rs ← serializeLeafCells m rest
    pure (le32 k ++ rb ++ rs)

/-- `LeafNode.Serialize`: zero the page, write the header at offset 0 and the
cells from offset 14.  The result is the full page image.  (When the cells
exceed the page the Go code panics on the slice bounds; the theorems about
this function assume the node fits.) -/
def serializeLeaf (m : TableMeta) (l : LeafRec) : Option (List Nat) := do
  let body ← serializeLeafCells m l.cells
  pure (hdrBytes l.header nodeTypeLeaf ++ body ++
    List.replicate (pageSize - (headerSize + body.length)) 0)

/-- The cell loop of `LeafNode.Load`: read `cnt` cells, each
`[key | rowSize row bytes]`. -/
def parseLeafCells (m : TableMeta) : Nat → List Nat → Option (List (Nat × List Value))
  | 0, _ => some []
  | c + 1, bs => do
    let row ← deserializeRow m (readBytes bs 4 m.rowSize)
    let rest ← parseLeafCells m c (bs.drop (4 + m.rowSize))
    pure ((rd32 (bs.take 4), row) :: rest)

/-- `LeafNode.Load`: check the type byte, read the header, then `numCells`
cells.  `none` models any of the error returns. -/
def loadLeaf (m : TableMeta) (page : List Nat) : Option LeafRec :=
  if page.getD 0 0 = nodeTypeLeaf then do
    let h := parseHdr (page.take headerSize)
    let cs ← parseLeafCells m h.numCells (page.drop headerSize)
    pure ⟨h, cs⟩
  else none

/-- The cell loop of `InteriorNode.Serialize`: each cell is
`[childPage | key]`, eight bytes. -/
def serializeInteriorCells : List (Nat × Nat) → List Nat
  | [] => []
  | (child, k) :: rest => le32 child ++ le32 k ++ serializeInteriorCells rest

/-- `InteriorNode.Serialize`: zero the page, header at 0, cells from 14. -/
def serializeInterior (n : IntRec) : List Nat :=
  let body := serializeInteriorCells n.cells
  hdrBytes n.header nodeTypeInterior ++ body ++
    List.replicate (pageSize - (headerSize + body.length)) 0

/-- The cell loop of `InteriorNode.Load`. -/
def parseInteriorCells : Nat → List Nat → List (Nat × Nat)
  | 0, _ => []
  | c + 1, bs =>
    (rd32 (bs.take 4), rd32 (readBytes bs 4 4)) :: parseInteriorCells c (bs.drop 8)

/-- `InteriorNode.Load`: check the type byte, read header and cells. -/
def loadInterior (page : List Nat) : Option IntRec :=
  if page.getD 0 0 = nodeTypeInterior then
    let h := parseHdr (page.take headerSize)
    some ⟨h, parseInteriorCells h.numCells (page.drop headerSize)⟩
  else none

/-! ### Validity and flat encodings

Specification-side definitions used to state and prove the round-trip
properties: a value is `valid` for its column when it is representable in
the on-disk field (a `uint32`; text bytes that fit `MaxLength` with no
trailing zero byte), and the flat encodings below describe the byte image
the sequential writes of `Serialize` produce. -/

/-- A row value valid for its column: an INT holds a `uint32`; a TEXT holds
at most `maxLength` byte values below 256 with no trailing zero byte (the
codec pads with zeros and trims them back on load). -/
def validValueB (c : ColMeta) (v : Value) : Bool :=
  match c.ty, v with
  | .int, .int n => n < 4294967296
  | .text, .text bs =>
    bs.length ≤ c.maxLength && !(bs.getLast? == some 0) && bs.all (· < 256)
  | _, _ => false

/-- A row valid for a column list: same arity, each value valid. -/
def validRowColsB : List ColMeta → List Value → Bool
  | [], [] => true
  | c :: cs, v :: vs => validValueB c v && validRowColsB cs vs
  | _, _ => false

/-- A row valid for a table meta. -/
def validRowB (m : TableMeta) (row : List Value) : Bool :=
  validRowColsB m.columns row

/-- The byte image `SerializeRow` leaves in one column's field. -/
def encVal (c : ColMeta) (v : Value) : List Nat :=
  match c.ty, v with
  | .int, .int n => le32 n
  | .text, .text bs => bs ++ List.replicate (c.byteSize - bs.length) 0
  | _, _ => []

/-- The byte image `SerializeRow` leaves in a whole row buffer. -/
def encRow : List ColMeta → List Value → List Nat
  | [], _ => []
  | _ :: _, [] => []
  | c :: cs, v :: vs => encVal c v ++ encRow cs vs

/-- The byte image of a leaf node's cell area. -/
def encLeafCells (m : TableMeta) : List (Nat × List Value) → List Nat
  | [] => []
  | (k, r) :: rest => le32 k ++ encRow m.columns r ++ encLeafCells m rest

/-- A leaf node valid for serialization: consistent `numCells`, at most
`maxCells` cells, `uint32` header fields and keys, valid rows, and a cell
area that fits in the page (beyond it the Go writes would panic on the
slice bounds). -/
def validLeafB (m : TableMeta) (l : LeafRec) : Bool :=
  l.header.numCells == l.cells.length && l.cells.length ≤ maxCells &&
    l.header.parentPage < 4294967296 && l.header.rightPointer < 4294967296 &&
    l.cells.all (fun c => c.1 < 4294967296 && validRowB m c.2) &&
    headerSize + l.cells.length * (4 + m.rowSize) ≤ pageSize

/-- An interior node valid for serialization. -/
def validIntB (n : IntRec) : Bool :=
  n.header.numCells == n.cells.length && n.cells.length ≤ maxCells &&
    n.header.parentPage < 4294967296 && n.header.rightPointer < 4294967296 &&
    n.cells.all (fun c => c.1 < 4294967296 && c.2 < 4294967296)

/-! ## Tree-level model (`btree.go`, `btree_node.go`)

At this level a page of the pager cache holds the decoded content the
byte-level codec would write there, and rows are an opaque type `α` (the
tree code never inspects row contents).  `none` results model errors and
panics, as noted per function. -/

/-- `baseHeader` with the in-memory `pageNum`. -/
structure BaseHeader where
  pageNum : Nat
  isRoot : Bool
  parentPage : Nat
  numCells : Nat
  rightPointer : Nat
  deriving DecidableEq, Repr

/-- In-memory `LeafNode` (its `bTreeMeta` handle is implicit here). -/
structure LeafN (α : Type) where
  header : BaseHeader
  cells : List (Nat × α)
  deriving DecidableEq, Repr

/-- In-memory `InteriorNode`. -/
structure IntN where
  header : BaseHeader
  cells : List (Nat × Nat)
  deriving DecidableEq, Repr

/-- A loaded `BTreeNode` (the Go interface, as a sum). -/
inductive TreeNode (α : Type) where
  | leaf (l : LeafN α)
  | interior (n : IntN)
  deriving DecidableEq, Repr

/-- `BTreeNode.Page()`. -/
def TreeNode.page {α : Type} : TreeNode α → Nat
  | .leaf l => l.header.pageNum
  | .interior n => n.header.pageNum

/-- Set the in-memory page number after a `Load` (both `loadNode` branches
assign `header.pageNum = pageNum`). -/
def TreeNode.setPage {α : Type} : TreeNode α → Nat → TreeNode α
  | .leaf l, pg => .leaf { l with header := { l.header with pageNum := pg } }
  | .interior n, pg => .interior { n with header := { n.header with pageNum := pg } }

/-- Clear or set the `isRoot` flag (`rootHeader(n).isRoot = ...`). -/
def TreeNode.setIsRoot {α : Type} : TreeNode α → Bool → TreeNode α
  | .leaf l, b => .leaf { l with header := { l.header with isRoot := b } }
  | .interior n, b => .interior { n with header := { n.header with isRoot := b } }

/-- What a page of the pager cache can hold, at the decoded level. -/
inductive PageContent (α : Type) where
  | node (n : TreeNode α)
  /-- Page 0 after the meta-page write: bytes `[0..4)` hold the root page
  number little-endian, the rest are zero. -/
  | meta (root : Nat)
  /-- A page whose leading type byte `b` is neither `0` nor `1` (used to
  model format corruption; constructors never build it with `b < 2`). -/
  | badType (b : Nat)
  deriving DecidableEq, Repr

/-- The combined state: the pager's page cache (`none` = a page that was
never written, which `GetPage` materializes as all-zero bytes), the pager's
allocation state (`FileLength / PageSize`), the in-memory `BTree.rootPage`,
and the meta page's dirty flag. -/
structure DB (α : Type) where
  pages : Nat → Option (PageContent α)
  fileLenPages : Nat
  rootPage : Nat
  metaDirty : Bool

/-- The hard page cap (`pager.TableMaxPages`). -/
def tableMaxPages : Nat := 100

/-- `Pager.AllocatePage`: hand out `FileLength / PageSize` and extend the
file by one page; fails at the cap. -/
def allocPage {α : Type} (st : DB α) : Option (Nat × DB α) :=
  if st.fileLenPages ≥ tableMaxPages then none
  else some (st.fileLenPages, { st with fileLenPages := st.fileLenPages + 1 })

/-- `node.Serialize(p)` for `p = GetPage(pg)`: replace the decoded content
of page `pg` by the node's serialized attributes. -/
def writePage {α : Type} (st : DB α) (pg : Nat) (n : TreeNode α) : DB α :=
  { st with pages := fun m => if m = pg then some (.node n) else st.pages m }

/-- `node.Serialize` behind InteriorNode.Insert's
`if pg, _ := GetPage(x); pg != nil` guards: a failed `GetPage` silently
skips the write. -/
def writePageChecked {α : Type} (st : DB α) (pg : Nat) (n : TreeNode α) : DB α :=
  if pg < tableMaxPages then writePage st pg n else st

/-- Decoding the meta page's bytes as a node, byte-faithfully: byte 0 is
`root % 256`, byte 1 is `root / 256 % 256`, bytes `[2..6)` decode to
`root / 65536` (for `root < 2 ^ 32`), and all later bytes are zero.  Only
reachable if a child pointer aims at page 0. -/
def decodeMetaAsNode {α : Type} (pg root : Nat) : Option (TreeNode α) :=
  if root % 256 = nodeTypeLeaf then
    some (.leaf ⟨⟨pg, root / 256 % 256 = 1, root / 65536, 0, 0⟩, []⟩)
  else if root % 256 = nodeTypeInterior then
    some (.interior ⟨⟨pg, root / 256 % 256 = 1, root / 65536, 0, 0⟩, []⟩)
  else none

/-- `BTree.loadNode`: `GetPage` then dispatch on the type byte and `Load`.
`none` models both a `GetPage` error (page number at or past the cap) and
the unknown-type / mismatched-type error returns. -/
def loadNodeAt {α : Type} (st : DB α) (pg : Nat) : Option (TreeNode α) :=
  if pg ≥ tableMaxPages then none
  else
    match st.pages pg with
    | some (.node n) => some (n.setPage pg)
    | some (.meta root) => decodeMetaAsNode pg root
    | some (.badType _) => none
    | none => some (.interior ⟨⟨pg, false, 0, 0, 0⟩, []⟩)

/-- `BTree.loadLeafNode`: `GetPage` then `LeafNode.Load`, which errors
unless the type byte is `1`. -/
def loadLeafAt {α : Type} (st : DB α) (pg : Nat) : Option (LeafN α) :=
  if pg ≥ tableMaxPages then none
  else
    match st.pages pg with
    | some (.node (.leaf l)) => some { l with header := { l.header with pageNum := pg } }
    | some (.node (.interior _)) => none
    | some (.meta root) =>
      if root % 256 = nodeTypeLeaf then
        some ⟨⟨pg, root / 256 % 256 = 1, root / 65536, 0, 0⟩, []⟩
      else none
    | some (.badType _) => none
    | none => none

/-- `cells[i].Key` of a leaf cell slice (default 0 is never reached by the
indexes the code uses). -/
def cellKeyL {α : Type} (cells : List (Nat × α)) (i : Nat) : Nat :=
  (cells.map Prod.fst).getD i 0

/-- `cells[i].Key` of an interior cell slice (cells are `(childPage, key)`). -/
def cellKeyI (cells : List (Nat × Nat)) (i : Nat) : Nat :=
  (cells.map Prod.snd).getD i 0

/-- `cells[i].ChildPage` of an interior cell slice. -/
def cellChildI (cells : List (Nat × Nat)) (i : Nat) : Nat :=
  (cells.map Prod.fst).getD i 0

/-- `LeafNode.Insert`: splice at the binary-search index; on overflow
allocate a sibling leaf, move `cells[mid:]` to it, relink the leaf chain and
return `(sibling, sibling.cells[0].Key, true)`.  `none` models the Go panic
when `NewLeafNode` cannot allocate a page. -/
def leafInsert {α : Type} (st : DB α) (l : LeafN α) (key : Nat) (v : α) :
    Option (DB α × LeafN α × Option (TreeNode α × Nat)) :=
  let idx := sortSearch l.header.numCells fun i => decide (key ≤ cellKeyL l.cells i)
  let cells2 := listInsertAt idx (key, v) l.cells
  if cells2.length > maxCells then
    match allocPage st with
    | none => none
    | some (pgno, st1) =>
      let mid := cells2.length / 2
      let sib : LeafN α :=
        ⟨⟨pgno, false, 0, (cells2.drop mid).length, l.header.rightPointer⟩, cells2.drop mid⟩
      let l2 : LeafN α :=
        ⟨⟨l.header.pageNum, l.header.isRoot, l.header.parentPage,
          (cells2.take mid).length, pgno⟩, cells2.take mid⟩
      some (st1, l2, some (.leaf sib, cellKeyL (cells2.drop mid) 0))
  else
    some (st, { header := { l.header with numCells := cells2.length }, cells := cells2 }, none)

/-- Result of the child-loading step inside `InteriorNode.Insert`. -/
inductive ChildLoad (α : Type) where
  | ok (c : TreeNode α)
  /-- `child.Load(p)` returned an error (type byte neither leaf nor
  interior): `Insert` then returns `(nil, 0, false)` silently. -/
  | loadErr
  | panic

/-- The child instantiation of `InteriorNode.Insert`: pick the variant by
the page's first byte, then `Load`.  A fresh zero page reads as an empty
interior node (type byte 0). -/
def childLoadForInsert {α : Type} (st : DB α) (pg : Nat) : ChildLoad α :=
  match st.pages pg with
  | some (.node (.leaf l)) =>
    .ok (.leaf { l with header := { l.header with pageNum := pg } })
  | some (.node (.interior n)) =>
    .ok (.interior { n with header := { n.header with pageNum := pg } })
  | some (.meta root) =>
    if root % 256 = nodeTypeLeaf then
      .ok (.leaf ⟨⟨pg, root / 256 % 256 = 1, root / 65536, 0, 0⟩, []⟩)
    else if root % 256 = nodeTypeInterior then
      .ok (.interior ⟨⟨pg, root / 256 % 256 = 1, root / 65536, 0, 0⟩, []⟩)
    else .loadErr
  | some (.badType b) =>
    if b = nodeTypeLeaf ∨ b = nodeTypeInterior then .panic else .loadErr
  | none => .ok (.interior ⟨⟨pg, false, 0, 0, 0⟩, []⟩)

/-- `BTreeNode.Insert` dispatch: `LeafNode.Insert` or the recursive
`InteriorNode.Insert`.  The fuel bounds the recursion depth (a modelling
device; any bound at least the tree height is exact); `none` models a panic
or fuel exhaustion.  In `InteriorNode.Insert`, a `GetPage` failure for the
child page is ignored (`p, _ := GetPage`), after which `p.Data[0]`
dereferences a nil pointer: that crash is `none`.  A child `Load` error is
swallowed (`return nil, 0, false`).  On a child split the new cell
`{ChildPage: sib.Page(), Key: splitKey}` is spliced at the descent index;
an overflowing interior splits around the median cell and serializes only
the two interior halves. -/
def nodeInsert {α : Type} :
    Nat → DB α → TreeNode α → Nat → α → Option (DB α × TreeNode α × Option (TreeNode α × Nat))
  | _, st, .leaf l, key, v =>
    (leafInsert st l key v).map fun r => (r.1, .leaf r.2.1, r.2.2)
  | 0, _, .interior _, _, _ => none
  | fuel + 1, st, .interior n, key, v =>
    let i := sortSearch n.cells.length fun j => decide (key ≤ cellKeyI n.cells j)
    let childPg := if i < n.cells.length then cellChildI n.cells i else n.header.rightPointer
    if childPg ≥ tableMaxPages then none
    else
      match childLoadForInsert st childPg with
      | .panic => none
      | .loadErr => some (st, .interior n, none)
      | .ok child =>
        match nodeInsert fuel st child key v with
        | none => none
        | some (st1, child2, none) =>
          some (writePage st1 childPg child2, .interior n, none)
        | some (st1, child2, some (sib, skey)) =>
          let cells2 := listInsertAt i (sib.page, skey) n.cells
          if cells2.length > maxCells then
            match allocPage st1 with
            | none => none
            | some (pgS, st2) =>
              let mid := cells2.length / 2
              let med := (cells2.drop mid).headD (0, 0)
              let sibInt : IntN :=
                ⟨⟨pgS, false, 0, (cells2.drop (mid + 1)).length, n.header.rightPointer⟩,
                  cells2.drop (mid + 1)⟩
              let n3 : IntN :=
                ⟨⟨n.header.pageNum, n.header.isRoot, n.header.parentPage,
                  (cells2.take mid).length, med.1⟩, cells2.take mid⟩
              let st3 := writePageChecked st2 n3.header.pageNum (.interior n3)
              let st4 := writePageChecked st3 pgS (.interior sibInt)
              some (st4, .interior n3, some (.interior sibInt, med.2))
          else
            let n2 : IntN := ⟨{ n.header with numCells := cells2.length }, cells2⟩
            let st2 := writePageChecked st1 child2.page child2
            let st3 := writePageChecked st2 sib.page sib
            let st4 := writePageChecked st3 n2.header.pageNum (.interior n2)
            some (st4, .interior n2, none)

/-- `BTree.updateRootPointer`: set the in-memory root page, write it into
meta page 0 and mark the meta page dirty. -/
def updateRootPtr {α : Type} (st : DB α) (newPg : Nat) : DB α :=
  { st with
    rootPage := newPg,
    pages := fun m => if m = 0 then some (.meta newPg) else st.pages m,
    metaDirty := true }

/-- `BTree.handleRootSplit`: allocate a new root page, demote and
re-serialize the old root, serialize the sibling, build and serialize the
new interior root `{isRoot, numCells 1, cell {oldRoot, splitKey},
rightPointer sibling}`, then update the root pointer. -/
def handleRootSplitM {α : Type} (st : DB α) (oldRoot sib : TreeNode α) (skey : Nat) :
    Option (DB α) :=
  match allocPage st with
  | none => none
  | some (newPg, st1) =>
    let old2 := oldRoot.setIsRoot false
    if old2.page ≥ tableMaxPages then none
    else
      let st2 := writePage st1 old2.page old2
      if sib.page ≥ tableMaxPages then none
      else
        let st3 := writePage st2 sib.page sib
        let newRoot : IntN := ⟨⟨newPg, true, 0, 1, sib.page⟩, [(oldRoot.page, skey)]⟩
        some (updateRootPtr (writePage st3 newPg (.interior newRoot)) newPg)

/-- `BTree.Insert`: load the root, insert, then either re-serialize the
root at `t.rootPage` (`handleNoSplit`) or run the root-split protocol. -/
def btreeInsert {α : Type} (st : DB α) (key : Nat) (v : α) : Option (DB α) :=
  match loadNodeAt st st.rootPage with
  | none => none
  | some root =>
    match nodeInsert st.fileLenPages st root key v with
    | none => none
    | some (st1, root2, none) =>
      if st.rootPage ≥ tableMaxPages then none
      else some (writePage st1 st.rootPage root2)
    | some (st1, root2, some (sib, skey)) => handleRootSplitM st1 root2 sib skey

/-! ### Cursor (`btree.go`) -/

/-- The in-memory `Cursor` (minus its tree back-reference, passed
explicitly). -/
structure CursorM (α : Type) where
  leaf : LeafN α
  page : Nat
  idx : Nat
  valid : Bool
  deriving DecidableEq, Repr

/-- The loop of `BTree.firstLeaf`: always take `cells[0].ChildPage`, or
`rightPointer` if there are no cells.  Fuel bounds the unbounded `for` loop
(a modelling device; exact for any bound at least the tree height). -/
def firstLeafLoop {α : Type} : Nat → DB α → Nat → Option (LeafN α × Nat)
  | 0, _, _ => none
  | fuel + 1, st, pgno =>
    match loadNodeAt st pgno with
    | none => none
    | some (.leaf l) => some (l, pgno)
    | some (.interior n) =>
      firstLeafLoop fuel st
        (if n.cells.length > 0 then cellChildI n.cells 0 else n.header.rightPointer)

/-- `BTree.NewCursor`: position at the left-most leaf; valid iff it has
cells. -/
def newCursor {α : Type} (st : DB α) : Option (CursorM α) :=
  (firstLeafLoop (st.fileLenPages + 1) st st.rootPage).map fun p =>
    if p.1.header.numCells = 0 then ⟨p.1, p.2, 0, false⟩ else ⟨p.1, p.2, 0, true⟩

/-- `BTree.findChildPageInInterior`: binary search for the first cell with
`Key >= key`; descend there, or into `rightPointer` past the last cell. -/
def findChildPage (n : IntN) (key : Nat) : Nat :=
  let idx := sortSearch n.cells.length fun i => decide (key ≤ cellKeyI n.cells i)
  if idx < n.cells.length then cellChildI n.cells idx else n.header.rightPointer

/-- The loop of `BTree.findLeafForKey` (same fuel convention as
`firstLeafLoop`). -/
def findLeafLoop {α : Type} : Nat → DB α → Nat → Nat → Option (LeafN α × Nat)
  | 0, _, _, _ => none
  | fuel + 1, st, pgno, key =>
    match loadNodeAt st pgno with
    | none => none
    | some (.leaf l) => some (l, pgno)
    | some (.interior n) => findLeafLoop fuel st (findChildPage n key) key

/-- `Cursor.Seek`: descend to the leaf for `target`, binary-search inside
it, and set `valid := idx < numCells`. -/
def cursorSeek {α : Type} (st : DB α) (target : Nat) : Option (CursorM α) :=
  (findLeafLoop (st.fileLenPages + 1) st st.rootPage target).map fun p =>
    let idx := sortSearch p.1.header.numCells fun i => decide (target ≤ cellKeyL p.1.cells i)
    ⟨p.1, p.2, idx, decide (idx < p.1.header.numCells)⟩

/-- `Cursor.Key()` (defined only when the cursor is valid). -/
def cursorKey {α : Type} (c : CursorM α) : Nat :=
  cellKeyL c.leaf.cells c.idx

/-- `Cursor.Value()` (as an `Option`; `some` whenever the cursor is valid
in a maintained state). -/
def cursorValue {α : Type} (c : CursorM α) : Option α :=
  (c.leaf.cells.get? c.idx).map Prod.snd

/-- `BTree.Search` (the cursor-based revision): `NewCursor`, `Seek(key)`,
then report the row iff the cursor is valid and sits exactly on `key`.
Outer `none` is an error return; the inner option is found/not-found. -/
def searchTree {α : Type} (st : DB α) (key : Nat) : Option (Option α) :=
  match newCursor st with
  | none => none
  | some _ =>
    match cursorSeek st key with
    | none => none
    | some c2 =>
      some (if c2.valid ∧ cursorKey c2 = key then cursorValue c2 else none)

/-- `Cursor.Next`: advance in the leaf, else follow the leaf chain via
`rightPointer` (0 terminates). -/
def cursorNext {α : Type} (st : DB α) (c : CursorM α) : Option (CursorM α) :=
  if c.valid = false then some c
  else
    let c1 : CursorM α := { c with idx := c.idx + 1 }
    if c1.idx < c1.leaf.header.numCells then some c1
    else if c1.leaf.header.rightPointer = 0 then some { c1 with valid := false }
    else
      match loadLeafAt st c1.leaf.header.rightPointer with
      | none => none
      | some l =>
        let c2 : CursorM α := { c1 with leaf := l, page := l.header.pageNum }
        if l.header.numCells = 0 then some { c2 with valid := false }
        else some { c2 with idx := 0, valid := true }

/-- The iteration pattern `while Valid: Key; Next`, collecting the visited
keys (fuel bounds the loop; exact for any bound at least the total cell
count plus leaf count). -/
def collectKeys {α : Type} : Nat → DB α → CursorM α → List Nat
  | 0, _, _ => []
  | fuel + 1, st, c =>
    if c.valid then
      cursorKey c ::
        (match cursorNext st c with
         | none => []
         | some c2 => collectKeys fuel st c2)
    else []

/-! ### Delete

`BTree.Delete` (in `btree.go`) calls `root.Delete(key)`, but the node-level
`Delete` methods are absent from the available source; they are modelled
from the spec below. -/

/-- Modelled from the spec: `LeafNode.Delete` (absent from the source;
spec §4.3): binary-search for an exact match; if found, remove the cell in
place, decrement `numCells` and return `true`, else return `false`. -/
def leafDelete {α : Type} (l : LeafN α) (key : Nat) : LeafN α × Bool :=
  let idx := sortSearch l.header.numCells fun i => decide (key ≤ cellKeyL l.cells i)
  if idx < l.header.numCells ∧ cellKeyL l.cells idx = key then
    ({ header := { l.header with numCells := l.header.numCells - 1 },
       cells := l.cells.eraseIdx idx }, true)
  else (l, false)

/-- Modelled from the spec: `BTreeNode.Delete` (absent from the source;
spec §4.3–4.4): a leaf deletes in place; an interior descends by the
standard descent rule, recursively deletes and re-serializes the child,
never changing its own cells.  A child load failure is reported as
not-found (the spec leaves it unspecified and `BTree.Delete` discards
node-level errors). -/
def nodeDelete {α : Type} : Nat → DB α → TreeNode α → Nat → Option (DB α × TreeNode α × Bool)
  | _, st, .leaf l, key =>
    some (st, .leaf (leafDelete l key).1, (leafDelete l key).2)
  | 0, _, .interior _, _ => none
  | fuel + 1, st, .interior n, key =>
    let childPg := findChildPage n key
    match loadNodeAt st childPg with
    | none => some (st, .interior n, false)
    | some child =>
      match nodeDelete fuel st child key with
      | none => none
      | some (st1, child2, found) =>
        some (writePageChecked st1 childPg child2, .interior n, found)

/-- `BTree.Delete`: load the root, delete below it, and re-serialize the
root only when the key was found. -/
def btreeDelete {α : Type} (st : DB α) (key : Nat) : Option (DB α × Bool) :=
  match loadNodeAt st st.rootPage with
  | none => none
  | some root =>
    match nodeDelete st.fileLenPages st root key with
    | none => none
    | some (st1, root2, found) =>
      if found = false then some (st1, false)
      else if st.rootPage ≥ tableMaxPages then none
      else some (writePage st1 st.rootPage root2, true)

/-! ### Tree construction and observation -/

/-- `NewBTree` on an empty file: page 0 becomes the meta page pointing at
page 1, page 1 a serialized empty root leaf; the meta page is dirty. -/
def newBTree (α : Type) : DB α :=
  { pages := fun m =>
      if m = 1 then some (.node (.leaf ⟨⟨1, true, 0, 0, 0⟩, []⟩))
      else if m = 0 then some (.meta 1)
      else none,
    fileLenPages := 2,
    rootPage := 1,
    metaDirty := true }

/-- A run of `tree.Insert(k, row k)` over a list of keys (row contents are
opaque to the tree, so the key doubles as its row); `none` if any insert
fails. -/
def insertRun (st : DB Nat) (ks : List Nat) : Option (DB Nat) :=
  ks.foldlM (fun s k => btreeInsert s k k) st

/-- The keys found anywhere in the subtrees of the given root pages (pages
read exactly as `loadNode` reads them); this makes the spec's
"every key `k` found anywhere in the subtree reached via `p`" executable.
Fuel bounds the depth; exact for any bound at least the subtree height. -/
def subtreeKeysList {α : Type} : Nat → DB α → List Nat → List Nat
  | 0, _, _ => []
  | _ + 1, _, [] => []
  | fuel + 1, st, pg :: rest =>
    match loadNodeAt st pg with
    | some (.leaf l) => l.cells.map Prod.fst ++ subtreeKeysList fuel st rest
    | some (.interior n) =>
      subtreeKeysList fuel st (n.cells.map Prod.fst ++ [n.header.rightPointer] ++ rest)
    | none => subtreeKeysList fuel st rest

/-- The keys stored anywhere in the subtree rooted at page `pg`. -/
def subtreeKeys {α : Type} (fuel : Nat) (st : DB α) (pg : Nat) : List Nat :=
  subtreeKeysList fuel st [pg]

/-! ## Pager model (`pager/Pager.go`, the revision with `numPages`)

For the pager-level claims the file bytes matter, so pages are byte lists
here.  I/O failures of `Seek`/`ReadFull` are not modelled (reads succeed). -/

/-- `pager.Page`: the 4096 data bytes and the `writeOffset` bookkeeping
field set by `GetPage`. -/
structure PagerPage where
  data : List Nat
  writeOffset : Nat
  deriving DecidableEq, Repr

/-- `pager.Pager`: backing file length and contents, the page cache, and
the `numPages` counter (`fileSize / PageSize` at open). -/
structure PagerSt where
  fileLength : Nat
  file : Nat → Nat
  cache : Nat → Option PagerPage
  numPages : Nat

/-- `Pager.GetPage`: reject page numbers at or past the hard cap; return
the cached page if present; read an on-disk page (short last page padded
with zeros); otherwise materialize a fresh zeroed page and increment
`numPages`. -/
def pagerGetPage (p : PagerSt) (n : Nat) : Option (PagerPage × PagerSt) :=
  if n ≥ tableMaxPages then none
  else
    match p.cache n with
    | some pg => some (pg, p)
    | none =>
      let onDisk := p.fileLength / pageSize + (if p.fileLength % pageSize ≠ 0 then 1 else 0)
      if n < onDisk then
        let toRead :=
          if n = onDisk - 1 ∧ p.fileLength % pageSize ≠ 0 then p.fileLength % pageSize
          else pageSize
        let pg : PagerPage :=
          ⟨(List.range pageSize).map fun i =>
            if i < toRead then p.file (n * pageSize + i) else 0, toRead⟩
        some (pg, { p with cache := fun m => if m = n then some pg else p.cache m })
      else
        let pg : PagerPage := ⟨List.replicate pageSize 0, 0⟩
        some (pg,
          { p with
            numPages := p.numPages + 1,
            cache := fun m => if m = n then some pg else p.cache m })

/-- `Pager.AllocatePage`: hand out `FileLength / PageSize`, extend the file
by a page; fails at the cap. -/
def pagerAllocatePage (p : PagerSt) : Option (Nat × PagerSt) :=
  let np := p.fileLength / pageSize
  if np ≥ tableMaxPages then none
  else some (np, { p with fileLength := p.fileLength + pageSize })

/-- `OpenPager` on an empty (freshly created) file. -/
def openEmptyPager : PagerSt :=
  ⟨0, fun _ => 0, fun _ => none, 0⟩

/-! ## Concrete instances used by individual claims -/

/-- The schema `(id INT, name TEXT(8))` of the repository's own round-trip
test. -/
def schema98 : List SchemaCol := [⟨"id", .int, 0⟩, ⟨"name", .text, 8⟩]

/-- The table meta `BuildTableMeta` derives from `schema98`. -/
def m98 : TableMeta :=
  ⟨2, [⟨"id", .int, 0, 4, 0⟩, ⟨"name", .text, 4, 8, 8⟩], 12⟩

/-- A leaf whose rows are *not* valid: the first text value carries a
trailing zero byte (`"a\x00"`), the second is longer than `MaxLength`. -/
def leafBad : LeafRec :=
  ⟨⟨false, 0, 2, 0⟩,
    [(1, [.int 5, .text [97, 0]]),
     (2, [.int 7, .text [98, 99, 100, 101, 102, 103, 104, 105, 106]])]⟩

/-- A valid two-cell leaf for `schema98`. -/
def leafGood : LeafRec :=
  ⟨⟨true, 0, 2, 9⟩, [(1, [.int 5, .text [97]]), (2, [.int 4294967295, .text [104, 105]])]⟩

/-- A valid interior node. -/
def intGood : IntRec :=
  ⟨⟨true, 7, 2, 9⟩, [(1, 5), (2, 4294967295)]⟩

/-- The insert sequence of the cursor counterexample: two ascending-key leaf
splits would keep the left-most leaf first, so after `0,10,...,120` (which
splits once) the keys `1..7` are added to make the *left-most* leaf split. -/
def c6Keys : List Nat := (List.range 13).map (· * 10) ++ [1, 2, 3, 4, 5, 6, 7]

/-- A single-leaf tree holding keys `0..11` (the state just before the
split-inducing 13th insert); used to instantiate the root-split theorem. -/
def stPre : DB Nat :=
  { pages := fun m =>
      if m = 1 then
        some (.node (.leaf ⟨⟨1, true, 0, 12, 0⟩, (List.range 12).map fun k => (k, k)⟩))
      else if m = 0 then some (.meta 1)
      else none,
    fileLenPages := 2,
    rootPage := 1,
    metaDirty := true }

/-- The full root leaf of `stPre`, as `loadNode` returns it. -/
def rootPreLeaf : LeafN Nat := ⟨⟨1, true, 0, 12, 0⟩, (List.range 12).map fun k => (k, k)⟩

/-- A state whose only reachable interior node points at child page 200,
past the pager's hard cap. -/
def stBadChild : DB Nat :=
  { pages := fun _ => none, fileLenPages := 10, rootPage := 3, metaDirty := false }

/-- An interior node with a single cell routing keys `≤ 10` to page 200. -/
def nBadChild : IntN := ⟨⟨3, true, 0, 1, 7⟩, [(200, 10)]⟩

/-- A state whose page 7 holds a corrupt type byte (9). -/
def stCorrupt : DB Nat :=
  { pages := fun m => if m = 7 then some (.badType 9) else none,
    fileLenPages := 10,
    rootPage := 3,
    metaDirty := false }

/-- An interior node routing keys `≤ 10` to the corrupt page 7. -/
def nCorrupt : IntN := ⟨⟨3, true, 0, 1, 8⟩, [(7, 10)]⟩

/-! ## Helper lemmas -/

theorem listInsertAt_length {α : Type} (i : Nat) (a : α) (l : List α) :
    (listInsertAt i a l).length = l.length + 1 := by
  induction l generalizing i with
  | nil => cases i <;> simp [listInsertAt]
  | cons b t ih =>
    cases i with
    | zero => simp [listInsertAt]
    | succ j => simp [listInsertAt, ih]

theorem rd32_le32 (n : Nat) : rd32 (le32 n) = n % 4294967296 := by
  simp [rd32, le32]
  omega

theorem rd32_le32_lt {n : Nat} (h : n < 4294967296) : rd32 (le32 n) = n := by
  rw [rd32_le32]
  omega

theorem le32_length (n : Nat) : (le32 n).length = 4 := rfl

theorem drop_append_len {α : Type} (a : List α) (b : List α) (k : Nat) :
    (a ++ b).drop (a.length + k) = b.drop k := by
  induction a with
  | nil => simp
  | cons x t ih =>
    have h1 : (x :: t).length + k = (t.length + k) + 1 := by
      simp only [List.length_cons]
      omega
    rw [h1]
    simp only [List.cons_append, List.drop_succ_cons]
    exact ih

theorem take_append_len {α : Type} (a : List α) (b : List α) :
    (a ++ b).take a.length = a := by
  simp [List.take_left]

theorem drop_append_self {α : Type} (a : List α) (b : List α) :
    (a ++ b).drop a.length = b := by
  simp [drop_append_len a b 0]

theorem dropWhile_zeros_append (k : Nat) (x : List Nat) :
    (List.replicate k 0 ++ x).dropWhile (· = 0) = x.dropWhile (· = 0) := by
  induction k with
  | zero => simp
  | succ n ih => simp [List.replicate_succ, ih]

theorem trimTrailingZeros_append_zeros (bs : List Nat) (k : Nat) :
    trimTrailingZeros (bs ++ List.replicate k 0) = trimTrailingZeros bs := by
  simp [trimTrailingZeros, List.reverse_append, List.reverse_replicate,
    dropWhile_zeros_append]

theorem trimTrailingZeros_eq_self {bs : List Nat} (h : bs.getLast? ≠ some 0) :
    trimTrailingZeros bs = bs := by
  unfold trimTrailingZeros
  cases hr : bs.reverse with
  | nil =>
    have : bs = [] := by simpa using congrArg List.reverse hr
    simp [this]
  | cons x t =>
    have hx : x ≠ 0 := by
      intro hx0
      apply h
      have : bs.getLast? = bs.reverse.head? := (List.head?_reverse bs).symm
      rw [this, hr, hx0]
      rfl
    have : (x :: t).dropWhile (· = 0) = x :: t := by
      simp [List.dropWhile, hx]
    rw [this, ← hr, List.reverse_reverse]

/-! ## Row codec round-trip -/

theorem aux_total_ge {schema : List SchemaCol} {off total : Nat} {cols : List ColMeta}
    (hb : buildTableMetaAux off schema = some (cols, total)) : off ≤ total := by
  induction schema generalizing off cols with
  | nil =>
    simp [buildTableMetaAux] at hb
    omega
  | cons c rest ih =>
    cases hty : c.ty with
    | int =>
      simp [buildTableMetaAux, hty] at hb
      obtain ⟨p, hp, _⟩ := hb
      have := ih hp
      omega
    | text =>
      simp [buildTableMetaAux, hty] at hb
      obtain ⟨-, p, hp, _⟩ := hb
      have := ih hp
      omega

theorem aux_cols_length {schema : List SchemaCol} {off total : Nat} {cols : List ColMeta}
    (hb : buildTableMetaAux off schema = some (cols, total)) :
    cols.length = schema.length := by
  induction schema generalizing off cols with
  | nil =>
    simp [buildTableMetaAux] at hb
    simp [hb.1]
  | cons c rest ih =>
    cases hty : c.ty with
    | int =>
      simp [buildTableMetaAux, hty] at hb
      obtain ⟨p, hp, hc⟩ := hb
      have := ih hp
      simp [← hc, this]
    | text =>
      simp [buildTableMetaAux, hty] at hb
      obtain ⟨-, p, hp, hc⟩ := hb
      have := ih hp
      simp [← hc, this]

theorem validRowColsB_length {cols : List ColMeta} {row : List Value}
    (hv : validRowColsB cols row = true) : row.length = cols.length := by
  induction cols generalizing row with
  | nil => cases row <;> simp_all [validRowColsB]
  | cons c cs ih =>
    cases row with
    | nil => simp [validRowColsB] at hv
    | cons v vs =>
      simp only [validRowColsB, Bool.and_eq_true] at hv
      simp [ih hv.2]

theorem serializeRowAux_spec {schema : List SchemaCol} {off total : Nat}
    {cols : List ColMeta} {row : List Value} (pre : List Nat)
    (hb : buildTableMetaAux off schema = some (cols, total))
    (hv : validRowColsB cols row = true)
    (hpre : pre.length = off) :
    serializeRowAux cols row (pre ++ List.replicate (total - off) 0) =
      some (pre ++ encRow cols row) := by
  induction schema generalizing off cols row pre with
  | nil =>
    simp [buildTableMetaAux] at hb
    obtain ⟨hc, ht⟩ := hb
    subst hc ht
    cases row with
    | nil => simp [serializeRowAux, encRow]
    | cons v vs => simp [validRowColsB] at hv
  | cons c rest ih =>
    cases hty : c.ty with
    | int =>
      simp [buildTableMetaAux, hty] at hb
      obtain ⟨cs, hcs, hcols⟩ := hb
      subst hcols
      cases row with
      | nil => simp [validRowColsB] at hv
      | cons v vs =>
        simp only [validRowColsB, Bool.and_eq_true] at hv
        obtain ⟨hv1, hv2⟩ := hv
        cases v with
        | text bs => simp [validValueB] at hv1
        | int n =>
          subst hpre
          have hw : writeBytes (pre ++ List.replicate (total - pre.length) 0)
                pre.length (le32 n) =
              (pre ++ le32 n) ++ List.replicate (total - (pre.length + 4)) 0 := by
            unfold writeBytes
            rw [le32_length, take_append_len, drop_append_len, List.drop_replicate]
            have h4 : total - pre.length - 4 = total - (pre.length + 4) := by omega
            simp [h4]
          simp only [serializeRowAux, hw]
          have ihx := ih (pre ++ le32 n) hcs hv2 (by simp [le32_length])
          rw [ihx]
          simp [encRow, encVal]
    | text =>
      simp [buildTableMetaAux, hty] at hb
      obtain ⟨hL, cs, hcs, hcols⟩ := hb
      subst hcols
      cases row with
      | nil => simp [validRowColsB] at hv
      | cons v vs =>
        simp only [validRowColsB, Bool.and_eq_true] at hv
        obtain ⟨hv1, hv2⟩ := hv
        cases v with
        | int n => simp [validValueB] at hv1
        | text bs =>
          subst hpre
          simp only [validValueB, Bool.and_eq_true, decide_eq_true_eq] at hv1
          obtain ⟨⟨hlen, -⟩, -⟩ := hv1
          have htot : pre.length + c.maxLength ≤ total := aux_total_ge hcs
          have hnot : ¬ bs.length > c.maxLength := by omega
          have hsplit : List.replicate (total - pre.length - bs.length) (0 : Nat) =
              List.replicate (c.maxLength - bs.length) 0 ++
                List.replicate (total - (pre.length + c.maxLength)) 0 := by
            rw [← List.replicate_add]
            congr 1
            omega
          have hw : writeBytes (pre ++ List.replicate (total - pre.length) 0)
                pre.length bs =
              (pre ++ (bs ++ List.replicate (c.maxLength - bs.length) 0)) ++
                List.replicate (total - (pre.length + c.maxLength)) 0 := by
            unfold writeBytes
            rw [take_append_len, drop_append_len, List.drop_replicate, hsplit]
            simp
          simp only [serializeRowAux, if_neg hnot, hw]
          have ihx := ih (pre ++ (bs ++ List.replicate (c.maxLength - bs.length) 0)) hcs hv2
            (by
              simp only [List.length_append, List.length_replicate]
              omega)
          rw [ihx]
          simp [encRow, encVal]

theorem encVal_text_length {c : ColMeta} {bs : List Nat} (h : bs.length ≤ c.byteSize) :
    (encVal c (.text bs)).length = c.byteSize ∨ c.ty = .int := by
  cases hty : c.ty with
  | int => right; rfl
  | text =>
    left
    simp [encVal, hty]
    omega

theorem readCols_spec {schema : List SchemaCol} {off total : Nat}
    {cols : List ColMeta} {row : List Value} {buf rest : List Nat}
    (hb : buildTableMetaAux off schema = some (cols, total))
    (hv : validRowColsB cols row = true)
    (hbuf : buf.drop off = encRow cols row ++ rest) :
    cols.map (readColVal buf) = row := by
  induction schema generalizing off cols row rest with
  | nil =>
    simp [buildTableMetaAux] at hb
    obtain ⟨hc, -⟩ := hb
    subst hc
    cases row with
    | nil => simp
    | cons v vs => simp [validRowColsB] at hv
  | cons c rest2 ih =>
    cases hty : c.ty with
    | int =>
      simp [buildTableMetaAux, hty] at hb
      obtain ⟨cs, hcs, hcols⟩ := hb
      subst hcols
      cases row with
      | nil => simp [validRowColsB] at hv
      | cons v vs =>
        simp only [validRowColsB, Bool.and_eq_true] at hv
        obtain ⟨hv1, hv2⟩ := hv
        cases v with
        | text bs => simp [validValueB] at hv1
        | int n =>
          simp only [validValueB, decide_eq_true_eq] at hv1
          have henc : encRow
              (⟨c.name, .int, off, 4, 0⟩ :: cs) (Value.int n :: vs) =
              le32 n ++ encRow cs vs := by
            simp [encRow, encVal]
          rw [henc] at hbuf
          have hhead : readColVal buf ⟨c.name, .int, off, 4, 0⟩ = Value.int n := by
            simp only [readColVal, readBytes]
            rw [hbuf]
            have h4 : (4 : Nat) = (le32 n).length := (le32_length n).symm
            rw [List.append_assoc, h4, take_append_len, rd32_le32_lt hv1]
          have htail : buf.drop (off + 4) = encRow cs vs ++ rest := by
            have hdd : buf.drop (off + 4) = (buf.drop off).drop 4 := by
              rw [List.drop_drop]
            rw [hdd, hbuf, List.append_assoc]
            have h4 : (4 : Nat) = (le32 n).length := (le32_length n).symm
            rw [h4, drop_append_self]
          simp only [List.map_cons, hhead]
          rw [ih hcs hv2 htail]
    | text =>
      simp [buildTableMetaAux, hty] at hb
      obtain ⟨-, cs, hcs, hcols⟩ := hb
      subst hcols
      cases row with
      | nil => simp [validRowColsB] at hv
      | cons v vs =>
        simp only [validRowColsB, Bool.and_eq_true] at hv
        obtain ⟨hv1, hv2⟩ := hv
        cases v with
        | int n => simp [validValueB] at hv1
        | text bs =>
          simp only [validValueB, Bool.and_eq_true, decide_eq_true_eq] at hv1
          obtain ⟨⟨hlen, hlast⟩, -⟩ := hv1
          have henc : encRow
              (⟨c.name, .text, off, c.maxLength, c.maxLength⟩ :: cs) (Value.text bs :: vs) =
              (bs ++ List.replicate (c.maxLength - bs.length) 0) ++ encRow cs vs := by
            simp [encRow, encVal]
          rw [henc] at hbuf
          have hel : (bs ++ List.replicate (c.maxLength - bs.length) 0).length =
              c.maxLength := by
            simp
            omega
          have hhead : readColVal buf ⟨c.name, .text, off, c.maxLength, c.maxLength⟩ =
              Value.text bs := by
            simp only [readColVal, readBytes]
            rw [hbuf, List.append_assoc]
            have htk := take_append_len
              (bs ++ List.replicate (c.maxLength - bs.length) 0) (encRow cs vs ++ rest)
            rw [hel] at htk
            rw [htk, trimTrailingZeros_append_zeros,
              trimTrailingZeros_eq_self (by simpa using hlast)]
          have htail : buf.drop (off + c.maxLength) = encRow cs vs ++ rest := by
            have hdd : buf.drop (off + c.maxLength) = (buf.drop off).drop c.maxLength := by
              rw [List.drop_drop]
            have hdr := drop_append_self
              (bs ++ List.replicate (c.maxLength - bs.length) 0) (encRow cs vs ++ rest)
            rw [hel] at hdr
            rw [hdd, hbuf, List.append_assoc, hdr]
          simp only [List.map_cons, hhead]
          rw [ih hcs hv2 htail]

theorem encRow_length {schema : List SchemaCol} {off total : Nat}
    {cols : List ColMeta} {row : List Value}
    (hb : buildTableMetaAux off schema = some (cols, total))
    (hv : validRowColsB cols row = true) :
    (encRow cols row).length = total - off := by
  induction schema generalizing off cols row with
  | nil =>
    simp [buildTableMetaAux] at hb
    obtain ⟨hc, ht⟩ := hb
    subst hc ht
    cases row with
    | nil => simp [encRow]
    | cons v vs => simp [validRowColsB] at hv
  | cons c rest ih =>
    cases hty : c.ty with
    | int =>
      simp [buildTableMetaAux, hty] at hb
      obtain ⟨cs, hcs, hcols⟩ := hb
      subst hcols
      cases row with
      | nil => simp [validRowColsB] at hv
      | cons v vs =>
        simp only [validRowColsB, Bool.and_eq_true] at hv
        obtain ⟨hv1, hv2⟩ := hv
        cases v with
        | text bs => simp [validValueB] at hv1
        | int n =>
          have h1 := ih hcs hv2
          have h2 := aux_total_ge hcs
          simp only [encRow, encVal, List.length_append, h1, le32_length]
          omega
    | text =>
      simp [buildTableMetaAux, hty] at hb
      obtain ⟨-, cs, hcs, hcols⟩ := hb
      subst hcols
      cases row with
      | nil => simp [validRowColsB] at hv
      | cons v vs =>
        simp only [validRowColsB, Bool.and_eq_true] at hv
        obtain ⟨hv1, hv2⟩ := hv
        cases v with
        | int n => simp [validValueB] at hv1
        | text bs =>
          simp only [validValueB, Bool.and_eq_true, decide_eq_true_eq] at hv1
          obtain ⟨⟨hlen, -⟩, -⟩ := hv1
          have h1 := ih hcs hv2
          have h2 := aux_total_ge hcs
          simp only [encRow, encVal, List.length_append, h1, List.length_replicate]
          omega

theorem serializeRow_spec {schema : List SchemaCol} {m : TableMeta} {row : List Value}
    (hb : buildTableMeta schema = some m) (hv : validRowB m row = true) :
    serializeRow m row = some (encRow m.columns row) := by
  unfold buildTableMeta at hb
  cases haux : buildTableMetaAux 0 schema with
  | none => simp [haux] at hb
  | some p =>
    obtain ⟨cols, total⟩ := p
    simp only [haux] at hb
    by_cases h0 : total = 0
    · simp [h0] at hb
    · simp only [if_neg h0, Option.some_inj] at hb
      subst hb
      unfold validRowB at hv
      have hlen : row.length = schema.length := by
        rw [validRowColsB_length hv, aux_cols_length haux]
      unfold serializeRow
      simp only [hlen, if_pos rfl]
      have := serializeRowAux_spec [] haux hv rfl
      simpa using this

theorem deserializeRow_encRow {schema : List SchemaCol} {m : TableMeta} {row : List Value}
    (hb : buildTableMeta schema = some m) (hv : validRowB m row = true) :
    deserializeRow m (encRow m.columns row) = some row := by
  unfold buildTableMeta at hb
  cases haux : buildTableMetaAux 0 schema with
  | none => simp [haux] at hb
  | some p =>
    obtain ⟨cols, total⟩ := p
    simp only [haux] at hb
    by_cases h0 : total = 0
    · simp [h0] at hb
    · simp only [if_neg h0, Option.some_inj] at hb
      subst hb
      unfold validRowB at hv
      have hlen : (encRow cols row).length = total := by
        simpa using encRow_length haux hv
      unfold deserializeRow
      simp only [hlen, eq_self_iff_true, if_true, Option.some_inj]
      exact @readCols_spec schema 0 total cols row (encRow cols row) [] haux hv (by simp)

/-! ## Leaf and interior node round-trip -/

theorem serializeLeafCells_spec {schema : List SchemaCol} {m : TableMeta}
    (hb : buildTableMeta schema = some m) :
    ∀ cells : List (Nat × List Value),
      cells.all (fun c => validRowB m c.2) = true →
      serializeLeafCells m cells = some (encLeafCells m cells)
  | [], _ => rfl
  | (k, r) :: rest, hv => by
    simp only [List.all_cons, Bool.and_eq_true] at hv
    obtain ⟨hv1, hv2⟩ := hv
    simp only [serializeLeafCells, serializeRow_spec hb hv1,
      serializeLeafCells_spec hb rest hv2, Option.bind_eq_bind, Option.some_bind]
    simp [encLeafCells]

theorem encRow_length_rowSize {schema : List SchemaCol} {m : TableMeta} {row : List Value}
    (hb : buildTableMeta schema = some m) (hv : validRowB m row = true) :
    (encRow m.columns row).length = m.rowSize := by
  unfold buildTableMeta at hb
  cases haux : buildTableMetaAux 0 schema with
  | none => simp [haux] at hb
  | some p =>
    obtain ⟨cols, total⟩ := p
    simp only [haux] at hb
    by_cases h0 : total = 0
    · simp [h0] at hb
    · simp only [if_neg h0, Option.some_inj] at hb
      subst hb
      simpa using encRow_length haux hv

theorem parseLeafCells_spec {schema : List SchemaCol} {m : TableMeta}
    (hb : buildTableMeta schema = some m) :
    ∀ (cells : List (Nat × List Value)) (tail : List Nat),
      cells.all (fun c => decide (c.1 < 4294967296) && validRowB m c.2) = true →
      parseLeafCells m cells.length (encLeafCells m cells ++ tail) = some cells
  | [], tail, _ => rfl
  | (k, r) :: rest, tail, hv => by
    simp only [List.all_cons, Bool.and_eq_true, decide_eq_true_eq] at hv
    obtain ⟨⟨hk, hr⟩, hv2⟩ := hv
    have hbs : encLeafCells m ((k, r) :: rest) ++ tail =
        le32 k ++ (encRow m.columns r ++ (encLeafCells m rest ++ tail)) := by
      simp [encLeafCells]
    have hkey : (encLeafCells m ((k, r) :: rest) ++ tail).take 4 = le32 k := by
      rw [hbs]
      have h4 : (4 : Nat) = (le32 k).length := (le32_length k).symm
      rw [h4, take_append_len]
    have hrow : readBytes (encLeafCells m ((k, r) :: rest) ++ tail) 4 m.rowSize =
        encRow m.columns r := by
      unfold readBytes
      rw [hbs]
      have h4 : (4 : Nat) = (le32 k).length := (le32_length k).symm
      rw [h4, drop_append_self]
      have hL : m.rowSize = (encRow m.columns r).length := (encRow_length_rowSize hb hr).symm
      rw [hL, take_append_len]
    have hrest : (encLeafCells m ((k, r) :: rest) ++ tail).drop (4 + m.rowSize) =
        encLeafCells m rest ++ tail := by
      rw [hbs]
      have h4 : (4 : Nat) = (le32 k).length := (le32_length k).symm
      have hdd : (le32 k ++ (encRow m.columns r ++ (encLeafCells m rest ++ tail))).drop
          (4 + m.rowSize) =
          ((le32 k ++ (encRow m.columns r ++ (encLeafCells m rest ++ tail))).drop 4).drop
            m.rowSize := by
        rw [List.drop_drop]
      rw [hdd, h4, drop_append_self]
      have hL : m.rowSize = (encRow m.columns r).length := (encRow_length_rowSize hb hr).symm
      rw [hL, drop_append_self]
    show parseLeafCells m (rest.length + 1) (encLeafCells m ((k, r) :: rest) ++ tail) =
      some ((k, r) :: rest)
    simp only [parseLeafCells, hrow, deserializeRow_encRow hb hr, Option.bind_eq_bind,
      Option.some_bind, hrest, parseLeafCells_spec hb rest tail hv2, hkey,
      rd32_le32_lt hk, Option.pure_def]

theorem hdrBytes_length (h : NodeHdr) (t : Nat) : (hdrBytes h t).length = headerSize := by
  simp [hdrBytes, le32, headerSize]

theorem parseHdr_hdrBytes {h : NodeHdr} (t : Nat)
    (h1 : h.parentPage < 4294967296) (h2 : h.numCells < 4294967296)
    (h3 : h.rightPointer < 4294967296) :
    parseHdr (hdrBytes h t) = h := by
  obtain ⟨ir, pp, nc, rp⟩ := h
  simp only [parseHdr, hdrBytes, le32, readBytes]
  simp only [List.cons_append, List.nil_append, List.drop, List.take, List.getD, List.get?]
  simp only [NodeHdr.mk.injEq]
  refine ⟨?_, ?_, ?_, ?_⟩
  · cases ir <;> simp
  · simp only [rd32, List.getD]
    simp at h1 ⊢
    omega
  · simp only [rd32, List.getD]
    simp at h2 ⊢
    omega
  · simp only [rd32, List.getD]
    simp at h3 ⊢
    omega

theorem loadLeaf_serializeLeaf {schema : List SchemaCol} {m : TableMeta} {l : LeafRec}
    (hb : buildTableMeta schema = some m) (hv : validLeafB m l = true) :
    (serializeLeaf m l).bind (loadLeaf m) = some l := by
  simp only [validLeafB, Bool.and_eq_true, beq_iff_eq, decide_eq_true_eq] at hv
  obtain ⟨⟨⟨⟨⟨hnum, hmax⟩, hpp⟩, hrp⟩, hcells⟩, -⟩ := hv
  have hcv : (l.cells.all fun c => validRowB m c.2) = true := by
    rw [List.all_eq_true] at hcells ⊢
    intro c hc
    exact ((Bool.and_eq_true _ _).mp (hcells c hc)).2
  have hser := serializeLeafCells_spec hb l.cells hcv
  simp only [serializeLeaf, hser, Option.bind_eq_bind, Option.some_bind, Option.pure_def]
  set page := hdrBytes l.header nodeTypeLeaf ++ encLeafCells m l.cells ++
    List.replicate (pageSize - (headerSize + (encLeafCells m l.cells).length)) 0 with hpage
  have htype : page.getD 0 0 = nodeTypeLeaf := by
    rw [hpage]
    simp [hdrBytes]
  have htake : page.take headerSize = hdrBytes l.header nodeTypeLeaf := by
    rw [hpage, List.append_assoc]
    have h14 : headerSize = (hdrBytes l.header nodeTypeLeaf).length :=
      (hdrBytes_length l.header nodeTypeLeaf).symm
    rw [h14, take_append_len]
  have hdrop : page.drop headerSize = encLeafCells m l.cells ++
      List.replicate (pageSize - (headerSize + (encLeafCells m l.cells).length)) 0 := by
    rw [hpage, List.append_assoc]
    have h14 : headerSize = (hdrBytes l.header nodeTypeLeaf).length :=
      (hdrBytes_length l.header nodeTypeLeaf).symm
    rw [h14, drop_append_self]
  have hhdr : parseHdr (page.take headerSize) = l.header := by
    rw [htake]
    refine parseHdr_hdrBytes nodeTypeLeaf hpp ?_ hrp
    rw [hnum]
    simp only [maxCells] at hmax
    omega
  simp only [loadLeaf, htype, if_pos rfl, hhdr, hdrop, hnum]
  rw [parseLeafCells_spec hb l.cells _ hcells]
  simp

theorem serializeInteriorCells_length (cells : List (Nat × Nat)) :
    (serializeInteriorCells cells).length = 8 * cells.length := by
  induction cells with
  | nil => simp [serializeInteriorCells]
  | cons c rest ih =>
    obtain ⟨a, b⟩ := c
    simp [serializeInteriorCells, ih, le32]
    omega

theorem parseInteriorCells_spec :
    ∀ (cells : List (Nat × Nat)) (tail : List Nat),
      cells.all (fun c => decide (c.1 < 4294967296) && decide (c.2 < 4294967296)) = true →
      parseInteriorCells cells.length (serializeInteriorCells cells ++ tail) = cells
  | [], tail, _ => rfl
  | (a, b) :: rest, tail, hv => by
    simp only [List.all_cons, Bool.and_eq_true, decide_eq_true_eq] at hv
    obtain ⟨⟨ha, hbb⟩, hv2⟩ := hv
    have hbs : serializeInteriorCells ((a, b) :: rest) ++ tail =
        le32 a ++ (le32 b ++ (serializeInteriorCells rest ++ tail)) := by
      simp [serializeInteriorCells]
    have hchild : (serializeInteriorCells ((a, b) :: rest) ++ tail).take 4 = le32 a := by
      rw [hbs]
      have h4 : (4 : Nat) = (le32 a).length := (le32_length a).symm
      rw [h4, take_append_len]
    have hkey : readBytes (serializeInteriorCells ((a, b) :: rest) ++ tail) 4 4 = le32 b := by
      have hd : (le32 a ++ (le32 b ++ (serializeInteriorCells rest ++ tail))).drop 4 =
          le32 b ++ (serializeInteriorCells rest ++ tail) := by
        have h4 : (4 : Nat) = (le32 a).length := (le32_length a).symm
        rw [h4, drop_append_self]
      unfold readBytes
      rw [hbs, hd]
      have h4b : (4 : Nat) = (le32 b).length := (le32_length b).symm
      rw [h4b, take_append_len]
    have hrest : (serializeInteriorCells ((a, b) :: rest) ++ tail).drop 8 =
        serializeInteriorCells rest ++ tail := by
      rw [hbs]
      have h8 : (8 : Nat) = ((le32 a ++ le32 b) : List Nat).length := by
        simp [le32]
      rw [← List.append_assoc, h8, drop_append_self]
    show parseInteriorCells (rest.length + 1) (serializeInteriorCells ((a, b) :: rest) ++ tail) =
      (a, b) :: rest
    simp only [parseInteriorCells, hchild, hkey, hrest,
      parseInteriorCells_spec rest tail hv2, rd32_le32_lt ha, rd32_le32_lt hbb]

theorem loadInterior_serializeInterior {n : IntRec} (hv : validIntB n = true) :
    loadInterior (serializeInterior n) = some n := by
  simp only [validIntB, Bool.and_eq_true, beq_iff_eq, decide_eq_true_eq] at hv
  obtain ⟨⟨⟨⟨hnum, hmax⟩, hpp⟩, hrp⟩, hcells⟩ := hv
  unfold serializeInterior
  set page := hdrBytes n.header nodeTypeInterior ++ serializeInteriorCells n.cells ++
    List.replicate (pageSize - (headerSize + (serializeInteriorCells n.cells).length)) 0
    with hpage
  have htype : page.getD 0 0 = nodeTypeInterior := by
    rw [hpage]
    simp [hdrBytes]
  have htake : page.take headerSize = hdrBytes n.header nodeTypeInterior := by
    rw [hpage, List.append_assoc]
    have h14 : headerSize = (hdrBytes n.header nodeTypeInterior).length :=
      (hdrBytes_length n.header nodeTypeInterior).symm
    rw [h14, take_append_len]
  have hdrop : page.drop headerSize = serializeInteriorCells n.cells ++
      List.replicate (pageSize - (headerSize + (serializeInteriorCells n.cells).length)) 0 := by
    rw [hpage, List.append_assoc]
    have h14 : headerSize = (hdrBytes n.header nodeTypeInterior).length :=
      (hdrBytes_length n.header nodeTypeInterior).symm
    rw [h14, drop_append_self]
  have hhdr : parseHdr (page.take headerSize) = n.header := by
    rw [htake]
    refine parseHdr_hdrBytes nodeTypeInterior hpp ?_ hrp
    rw [hnum]
    simp only [maxCells] at hmax
    omega
  have hcv : (n.cells.all fun c =>
      decide (c.1 < 4294967296) && decide (c.2 < 4294967296)) = true := by
    rw [List.all_eq_true] at hcells ⊢
    intro c hc
    have := hcells c hc
    simpa using this
  simp only [loadInterior, htype, eq_self_iff_true, if_true, hhdr, hdrop, hnum,
    parseInteriorCells_spec n.cells _ hcv]

theorem page_setIsRoot {α : Type} (n : TreeNode α) (b : Bool) :
    (n.setIsRoot b).page = n.page := by
  cases n <;> rfl

/-! ## Claim theorems -/

/-- Claim C1 (evidence of the code bug): after inserting keys `0..12` into a
fresh tree (all thirteen inserts succeed), `BTree.Search(6)` returns
not-found even though key 6 is stored in the tree (it sits in the right
leaf and full iteration visits it).  Key 6 equals the separator created by
the leaf split, and the `≥` descent rule of `findChildPageInInterior` sends
the lookup into the left leaf while the split placed the key in the right
one. -/
theorem c1_search_misses_inserted_key :
    (insertRun (newBTree Nat) (List.range 13)).bind (fun st => searchTree st 6) =
      some none ∧
    (insertRun (newBTree Nat) (List.range 13)).map
      (fun st => decide (6 ∈ subtreeKeys 100 st st.rootPage)) = some true ∧
    (insertRun (newBTree Nat) (List.range 13)).map
      (fun st => (newCursor st).map (collectKeys 100 st)) =
      some (some [0, 1, 2, 3, 4, 5, 6, 7, 8, 9, 10, 11, 12]) := by
  refine ⟨by decide, by decide, by decide⟩

/-- Claim C2 (evidence of the code bug): after inserting keys `0..18`, the
root holds the cell `{childPage 4, key 12}`, yet the subtree at page 4
contains key 18, so the subtree range bound `k < N.cells[i].key` fails.
`InteriorNode.Insert` spliced `{ChildPage: sibling, Key: separator}`, placing
the sibling (which holds the keys `≥ separator`) under the separator cell,
while `createNewRoot` correctly places the left node under the separator. -/
theorem c2_subtree_bound_violated :
    (insertRun (newBTree Nat) (List.range 19)).map (fun st => loadNodeAt st st.rootPage) =
      some (some (.interior ⟨⟨3, true, 0, 2, 2⟩, [(1, 6), (4, 12)]⟩)) ∧
    (insertRun (newBTree Nat) (List.range 19)).map
      (fun st => decide (18 ∈ subtreeKeys 100 st 4)) = some true ∧
    ¬(18 < 12) := by
  refine ⟨by decide, by decide, by decide⟩

/-- Claim C3: `LeafNode.Insert` on a leaf already holding `maxCells = 12`
cells splits exactly as claimed: with the 13 in-memory cells, `mid = 6`,
the original keeps the first 6 and the sibling receives the remaining 7,
the sibling inherits the old `rightPointer`, the original's `rightPointer`
becomes the sibling's page, and the return value is
`(sibling, sibling.cells[0].Key, true)`.  Moreover, inserting keys `0..12`
into an empty tree leaves the left leaf with keys `0..5` on page 1, the
right leaf with keys `6..12` on page 2, and separator key 6 in the root. -/
theorem c3_leaf_split_at_capacity :
    (∀ (α : Type) (st : DB α) (l : LeafN α) (key : Nat) (v : α),
      l.header.numCells = 12 → l.cells.length = 12 →
      st.fileLenPages < tableMaxPages →
      leafInsert st l key v =
        some ({ st with fileLenPages := st.fileLenPages + 1 },
          ⟨⟨l.header.pageNum, l.header.isRoot, l.header.parentPage, 6, st.fileLenPages⟩,
            (listInsertAt (sortSearch 12 fun i => decide (key ≤ cellKeyL l.cells i)) (key, v)
              l.cells).take 6⟩,
          some (.leaf ⟨⟨st.fileLenPages, false, 0, 7, l.header.rightPointer⟩,
            (listInsertAt (sortSearch 12 fun i => decide (key ≤ cellKeyL l.cells i)) (key, v)
              l.cells).drop 6⟩,
            cellKeyL ((listInsertAt (sortSearch 12 fun i => decide (key ≤ cellKeyL l.cells i))
              (key, v) l.cells).drop 6) 0))) ∧
    (insertRun (newBTree Nat) (List.range 13)).map
        (fun st => (loadLeafAt st 1, loadLeafAt st 2, loadNodeAt st st.rootPage)) =
      some
        (some ⟨⟨1, false, 0, 6, 2⟩, [(0, 0), (1, 1), (2, 2), (3, 3), (4, 4), (5, 5)]⟩,
         some ⟨⟨2, false, 0, 7, 0⟩,
           [(6, 6), (7, 7), (8, 8), (9, 9), (10, 10), (11, 11), (12, 12)]⟩,
         some (.interior ⟨⟨3, true, 0, 1, 2⟩, [(1, 6)]⟩)) := by
  constructor
  · intro α st l key v hnum hlen halloc
    unfold leafInsert
    rw [hnum]
    dsimp only
    have hlen2 : (listInsertAt (sortSearch 12 fun i => decide (key ≤ cellKeyL l.cells i))
        (key, v) l.cells).length = 13 := by
      rw [listInsertAt_length, hlen]
    rw [hlen2]
    rw [if_pos (by simp [maxCells])]
    unfold allocPage
    rw [if_neg (by omega)]
    simp only [Option.some_inj, List.length_take, List.length_drop, hlen2]
    norm_num
  · decide

/-- Claim C3, witness: the general split theorem applied to the concrete
12-cell root leaf of a tree holding keys `0..11`, inserting key 12. -/
theorem c3_leaf_split_at_capacity_witness :
    leafInsert (newBTree Nat) rootPreLeaf 12 12 =
      some ({ newBTree Nat with fileLenPages := 3 },
        ⟨⟨1, true, 0, 6, 2⟩, [(0, 0), (1, 1), (2, 2), (3, 3), (4, 4), (5, 5)]⟩,
        some (.leaf ⟨⟨2, false, 0, 7, 0⟩,
          [(6, 6), (7, 7), (8, 8), (9, 9), (10, 10), (11, 11), (12, 12)]⟩, 6)) :=
  c3_leaf_split_at_capacity.1 Nat (newBTree Nat) rootPreLeaf 12 12 rfl (by decide) (by decide)

/-- Claim C4 (evidence of the code bug): after inserting keys `0..12`,
`Cursor.Seek(6)` leaves the cursor invalid although the tree contains key
6 (which is `≥ 6`): the descent for a target equal to a separator goes
into the left leaf, whose keys are all smaller. -/
theorem c4_seek_misses_separator :
    (insertRun (newBTree Nat) (List.range 13)).map
      (fun st => (cursorSeek st 6).map (fun c => c.valid)) = some (some false) ∧
    (insertRun (newBTree Nat) (List.range 13)).map
      (fun st => decide (6 ∈ subtreeKeys 100 st st.rootPage)) = some true ∧
    6 ≤ (6 : Nat) := by
  refine ⟨by decide, by decide, by decide⟩

/-- Claim C5: whenever the root insert reports a split and the subsequent
allocation succeeds (with the three written pages distinct and nonzero, as
in every real run), `BTree.Insert` returns success with: the in-memory root
pointer and meta page 0 both set to the freshly allocated page (meta page
dirty), that page holding a new interior root with `isRoot`, one cell
`{oldRoot.page, splitKey}` and `rightPointer = sibling.page`, the demoted
old root re-serialized with `isRoot` cleared, and the sibling serialized. -/
theorem c5_root_split_protocol (α : Type) (st st1 : DB α) (root root2 sib : TreeNode α)
    (skey key : Nat) (v : α)
    (hload : loadNodeAt st st.rootPage = some root)
    (hins : nodeInsert st.fileLenPages st root key v = some (st1, root2, some (sib, skey)))
    (halloc : st1.fileLenPages < tableMaxPages)
    (h1 : st1.fileLenPages ≠ 0) (h2 : root2.page ≠ 0) (h3 : sib.page ≠ 0)
    (h4 : st1.fileLenPages ≠ root2.page) (h5 : st1.fileLenPages ≠ sib.page)
    (h6 : sib.page ≠ root2.page)
    (hold : root2.page < tableMaxPages) (hsib : sib.page < tableMaxPages) :
    (btreeInsert st key v).map (fun s => s.rootPage) = some st1.fileLenPages ∧
    (btreeInsert st key v).map (fun s => s.metaDirty) = some true ∧
    (btreeInsert st key v).map (fun s => s.pages 0) = some (some (.meta st1.fileLenPages)) ∧
    (btreeInsert st key v).map (fun s => s.pages st1.fileLenPages) =
      some (some (.node (.interior
        ⟨⟨st1.fileLenPages, true, 0, 1, sib.page⟩, [(root2.page, skey)]⟩))) ∧
    (btreeInsert st key v).map (fun s => s.pages root2.page) =
      some (some (.node (root2.setIsRoot false))) ∧
    (btreeInsert st key v).map (fun s => s.pages sib.page) = some (some (.node sib)) ∧
    (btreeInsert st key v).map (fun s => s.fileLenPages) = some (st1.fileLenPages + 1) := by
  have hbt : btreeInsert st key v =
      some (updateRootPtr
        (writePage
          (writePage
            (writePage { st1 with fileLenPages := st1.fileLenPages + 1 }
              (root2.setIsRoot false).page (root2.setIsRoot false))
            sib.page sib)
          st1.fileLenPages
          (.interior ⟨⟨st1.fileLenPages, true, 0, 1, sib.page⟩, [(root2.page, skey)]⟩))
        st1.fileLenPages) := by
    unfold btreeInsert
    rw [hload]
    dsimp only
    rw [hins]
    dsimp only
    unfold handleRootSplitM allocPage
    rw [if_neg (by omega)]
    dsimp only
    rw [if_neg (by rw [page_setIsRoot]; omega), if_neg (by omega)]
  rw [hbt]
  simp only [Option.map_some, updateRootPtr, writePage, Option.some_inj]
  rw [page_setIsRoot]
  refine ⟨rfl, rfl, by simp, ?_, ?_, ?_, rfl⟩
  · simp [h1]
  · simp [h2, Ne.symm h4, Ne.symm h6, page_setIsRoot]
  · simp [h3, Ne.symm h5]

/-- Claim C5, witness: the protocol applied to the 13th insert on the
concrete single-leaf tree holding keys `0..11` (old root page 1, sibling
page 2, new root page 3). -/
theorem c5_root_split_protocol_witness :
    (btreeInsert stPre 12 12).map (fun s => s.rootPage) = some 3 ∧
    (btreeInsert stPre 12 12).map (fun s => s.metaDirty) = some true ∧
    (btreeInsert stPre 12 12).map (fun s => s.pages 0) = some (some (.meta 3)) ∧
    (btreeInsert stPre 12 12).map (fun s => s.pages 3) =
      some (some (.node (.interior ⟨⟨3, true, 0, 1, 2⟩, [(1, 6)]⟩))) := by
  have h := c5_root_split_protocol Nat stPre
    { stPre with fileLenPages := 3 }
    (.leaf rootPreLeaf)
    (.leaf ⟨⟨1, true, 0, 6, 2⟩, [(0, 0), (1, 1), (2, 2), (3, 3), (4, 4), (5, 5)]⟩)
    (.leaf ⟨⟨2, false, 0, 7, 0⟩,
      [(6, 6), (7, 7), (8, 8), (9, 9), (10, 10), (11, 11), (12, 12)]⟩)
    6 12 12 rfl rfl (by decide) (by decide) (by decide) (by decide) (by decide)
    (by decide) (by decide) (by decide) (by decide)
  exact ⟨h.1, h.2.1, h.2.2.1, h.2.2.2.1⟩

/-- Claim C6 (evidence of the code bug): after twenty successful inserts
(`0,10,...,120` then `1..7`, the last of which splits the left-most leaf),
iterating `NewCursor; while Valid: Key; Next` yields fourteen keys that
omit `0..5`, although key 0 was inserted and is still stored in the tree:
the interior splice points `cells[0]` at the new right sibling, so
`firstLeaf` lands past the left-most leaf and the iteration misses its
keys. -/
theorem c6_cursor_misses_keys :
    (insertRun (newBTree Nat) c6Keys).map
      (fun st => (newCursor st).map (collectKeys 100 st)) =
      some (some [6, 7, 10, 20, 30, 40, 50, 60, 70, 80, 90, 100, 110, 120]) ∧
    (insertRun (newBTree Nat) c6Keys).map
      (fun st => decide (0 ∈ subtreeKeys 100 st st.rootPage)) = some true ∧
    (0 : Nat) ∈ c6Keys ∧
    (0 : Nat) ∉ [6, 7, 10, 20, 30, 40, 50, 60, 70, 80, 90, 100, 110, 120] := by
  refine ⟨by decide, by decide, by decide, by decide⟩

/-- Claim C7 (evidence of the code bug; the node-level `Delete` is modelled
from the spec, §4.3–4.4, as it is absent from the source): after inserting
keys `0..12` once each, `Delete(6)` returns `false` although key 6 is
present in the tree — the delete descent, like search, cannot reach a key
equal to a separator.  The claim's empty-tree scenario does hold:
`delete(42)` on a fresh tree returns `false` without error, `search(42)`
is `None`, and a fresh cursor is invalid. -/
theorem c7_delete_misses_present_key :
    (insertRun (newBTree Nat) (List.range 13)).map
      (fun st => (btreeDelete st 6).map (fun r => r.2)) = some (some false) ∧
    (insertRun (newBTree Nat) (List.range 13)).map
      (fun st => decide (6 ∈ subtreeKeys 100 st st.rootPage)) = some true ∧
    (btreeDelete (newBTree Nat) 42).map (fun r => r.2) = some false ∧
    searchTree (newBTree Nat) 42 = some none ∧
    (newCursor (newBTree Nat)).map (fun c => c.valid) = some false := by
  refine ⟨by decide, by decide, by decide, by decide, by decide⟩

/-- Claim C8 (counterexample): on a freshly opened empty file `numPages`
is 0, yet `GetPage(5)` succeeds — with `5 ≥ numPages` — and returns a
silently materialized all-zero page, incrementing `numPages`; the claim
says this access beyond end-of-file must fail. -/
theorem c8_getpage_beyond_eof_succeeds :
    openEmptyPager.numPages = 0 ∧
    (pagerGetPage openEmptyPager 5).map
      (fun r => (r.1.data, r.1.writeOffset, r.2.numPages)) =
      some (List.replicate pageSize 0, 0, 1) := by
  refine ⟨rfl, rfl⟩

/-- Claim C8 (amended): `Pager.GetPage(n)` fails exactly when
`n ≥ maxPages` (the hard cap, 100); for `n < maxPages` it always succeeds,
and when the page is uncached and lies at or beyond the end of file it
silently materializes a fresh zeroed page and increments `numPages` rather
than failing. -/
theorem c8_getpage_amended (p : PagerSt) (n : Nat) :
    (pagerGetPage p n = none ↔ n ≥ tableMaxPages) ∧
    (n < tableMaxPages → p.cache n = none →
      p.fileLength / pageSize + (if p.fileLength % pageSize ≠ 0 then 1 else 0) ≤ n →
      (pagerGetPage p n).map (fun r => (r.1, r.2.numPages)) =
        some (⟨List.replicate pageSize 0, 0⟩, p.numPages + 1)) := by
  constructor
  · constructor
    · intro h
      by_contra hn
      push_neg at hn
      unfold pagerGetPage at h
      rw [if_neg (by omega)] at h
      cases hc : p.cache n with
      | some pg =>
        rw [hc] at h
        simp at h
      | none =>
        rw [hc] at h
        dsimp only at h
        split_ifs at h
    · intro h
      unfold pagerGetPage
      rw [if_pos h]
  · intro h1 h2 h3
    unfold pagerGetPage
    rw [if_neg (by omega), h2]
    dsimp only
    rw [if_neg (by omega)]
    simp

/-- Claim C8 (amended), witness: on the empty pager, `GetPage(5)`
materializes the zero page and bumps `numPages` to 1. -/
theorem c8_getpage_amended_witness :
    (pagerGetPage openEmptyPager 5).map (fun r => (r.1, r.2.numPages)) =
      some (⟨List.replicate pageSize 0, 0⟩, 1) :=
  (c8_getpage_amended openEmptyPager 5).2 (by decide) rfl (by decide)

/-- Claim C9 (counterexample): for the schema `(id INT, name TEXT(8))`,
serializing and re-loading a leaf whose rows are not codec-valid does not
reproduce the cells: the text `"a\x00"` (bytes `[97, 0]`) loses its
trailing zero byte to `TrimRight`, and a nine-byte text is truncated to
`MaxLength = 8`; the claim requires only a valid *header* and at most
`maxCells` cells, so it asserts these round-trips succeed. -/
theorem c9_roundtrip_counterexample :
    buildTableMeta schema98 = some m98 ∧
    (serializeLeaf m98 leafBad).bind (loadLeaf m98) ≠ some leafBad ∧
    (serializeLeaf m98 leafBad).bind (loadLeaf m98) =
      some ⟨⟨false, 0, 2, 0⟩,
        [(1, [.int 5, .text [97]]),
         (2, [.int 7, .text [98, 99, 100, 101, 102, 103, 104, 105]])]⟩ := by
  refine ⟨by decide, by decide, by decide⟩

/-- Claim C9 (amended): for a table meta built by `BuildTableMeta` and a
node with a consistent header (`numCells` equal to the cell count, header
fields in `uint32` range), at most `maxCells` cells, a cell area that fits
in the page, and *codec-valid* cells — `uint32` keys and child pages; INT
values in `uint32` range; TEXT values of at most `MaxLength` bytes, each
below 256, with no trailing zero byte — serialize followed by load
reproduces the node's observable attributes (`isRoot`, `parentPage`,
`numCells`, `rightPointer`, and the full cell vector) exactly, for leaves
and interiors alike. -/
theorem c9_roundtrip_amended :
    (∀ (schema : List SchemaCol) (m : TableMeta) (l : LeafRec),
      buildTableMeta schema = some m → validLeafB m l = true →
      (serializeLeaf m l).bind (loadLeaf m) = some l) ∧
    (∀ n : IntRec, validIntB n = true →
      loadInterior (serializeInterior n) = some n) :=
  ⟨fun _ _ _ hb hv => loadLeaf_serializeLeaf hb hv,
   fun _ hv => loadInterior_serializeInterior hv⟩

/-- Claim C9 (amended), witness: the round-trip at the concrete schema
`(id INT, name TEXT(8))` on a valid two-cell leaf and a valid two-cell
interior node. -/
theorem c9_roundtrip_amended_witness :
    (serializeLeaf m98 leafGood).bind (loadLeaf m98) = some leafGood ∧
    loadInterior (serializeInterior intGood) = some intGood :=
  ⟨c9_roundtrip_amended.1 schema98 m98 leafGood (by decide) (by decide),
   c9_roundtrip_amended.2 intGood (by decide)⟩

/-- Claim C10 (counterexample): when the descent picks a child page number
at or past the pager's hard cap (here 200), `GetPage` fails, the error is
discarded (`p, _ := GetPage`), and the following `p.Data[0]` dereferences a
nil pointer: `InteriorNode.Insert` crashes (modelled as `none`) instead of
returning `(nil, 0, false)` as the claim states. -/
theorem c10_getpage_failure_crashes :
    nodeInsert 5 stBadChild (.interior nBadChild) 5 (5 : Nat) = none ∧
    nodeInsert 5 stBadChild (.interior nBadChild) 5 (5 : Nat) ≠
      some (stBadChild, .interior nBadChild, none) := by
  constructor
  · rfl
  · intro h
    rw [show nodeInsert 5 stBadChild (.interior nBadChild) 5 (5 : Nat) = none from rfl] at h
    exact Option.noConfusion h

/-- Claim C10 (amended): when the child page is readable but its type byte
is neither leaf (1) nor interior (0), the child's `Load` fails and
`InteriorNode.Insert` silently returns `(nil, 0, false)` with the state
untouched — indistinguishable from a successful insert with no split; a
`GetPage` failure, by contrast, crashes rather than returning. -/
theorem c10_load_error_silently_swallowed (α : Type) (st : DB α) (n : IntN)
    (key : Nat) (v : α) (fuel : Nat) (b : Nat)
    (hlt : findChildPage n key < tableMaxPages)
    (hcontent : st.pages (findChildPage n key) = some (.badType b))
    (hb0 : b ≠ nodeTypeLeaf) (hb1 : b ≠ nodeTypeInterior) :
    nodeInsert (fuel + 1) st (.interior n) key v = some (st, .interior n, none) := by
  have hfold : findChildPage n key =
      (if sortSearch n.cells.length (fun j => decide (key ≤ cellKeyI n.cells j)) <
          n.cells.length
        then cellChildI n.cells
          (sortSearch n.cells.length fun j => decide (key ≤ cellKeyI n.cells j))
        else n.header.rightPointer) := rfl
  unfold nodeInsert
  dsimp only
  rw [← hfold, if_neg (by omega)]
  unfold childLoadForInsert
  rw [hcontent]
  dsimp only
  rw [if_neg (by simp [nodeTypeLeaf, nodeTypeInterior] at hb0 hb1 ⊢; omega)]

/-- Claim C10 (amended), witness: an interior node routing to page 7, whose
content has type byte 9, reports success-without-split and leaves the state
unchanged. -/
theorem c10_load_error_silently_swallowed_witness :
    nodeInsert 6 stCorrupt (.interior nCorrupt) 5 (5 : Nat) =
      some (stCorrupt, .interior nCorrupt, none) :=
  c10_load_error_silently_swallowed Nat stCorrupt nCorrupt 5 5 5 9 (by decide) rfl
    (by decide) (by decide)

end VqLite
